import Mathlib

set_option linter.unusedVariables false

/- Verification of the LZ dictionary buffers (LzAccumBuffer and LzCircularBuffer)
   from src/decode/lzbuffer.rs. Bytes are modelled as natural numbers; the
   output sink records every byte written to it and how many times its flush
   operation was invoked. -/

/-- Output sink: the sequence of bytes written to it so far, plus a counter of
how often its flush operation has been invoked. -/
structure Sink where
  written : List Nat
  flushes : Nat

def Sink.writeAll (s : Sink) (bs : List Nat) : Sink :=
  { s with written := s.written ++ bs }

def Sink.flush (s : Sink) : Sink :=
  { s with flushes := s.flushes + 1 }

/-- Errors raised by the buffers. The Rust code raises LzmaError with distinct
messages; the constructors keep the distinguishing data instead of the message
text. distDict and distOut are the two DistanceOutOfRange conditions, memLimit
is the memory-limit failure, and fatal models a Rust panic (slice index out of
bounds, or remainder by zero). -/
inductive Err where
  | distDict (dist ds : Nat)
  | distOut (dist outSize : Nat)
  | memLimit (limit : Nat)
  | fatal
deriving DecidableEq

/-- Rust slice indexing: in bounds yields the element, out of bounds panics. -/
def listIndex (l : List Nat) (i : Nat) : Except Err Nat :=
  if i < l.length then .ok (l.getD i 0) else .error .fatal

/-- Rust Vec resize with fill value 0 (truncates when shrinking). -/
def listResize (l : List Nat) (n : Nat) : List Nat :=
  l.take n ++ List.replicate (n - l.length) 0

/-- Rust remainder on usize: panics when the divisor is zero. -/
def rustMod (a b : Nat) : Except Err Nat :=
  if b = 0 then .error .fatal else .ok (a % b)

/-- The accumulating buffer: stream, backing region, memory limit, and total
byte count, as in the Rust struct. -/
structure LzAccumBuffer where
  stream : Sink
  buf : List Nat
  memlimit : Nat
  len : Nat

def LzAccumBuffer.from_stream (stream : Sink) (dict_size memlimit : Nat)
    (buf : List Nat) : LzAccumBuffer :=
  { stream := stream, buf := buf, memlimit := memlimit, len := 0 }

def LzAccumBuffer.last_or (st : LzAccumBuffer) (lit : Nat) : Nat :=
  if st.buf.length = 0 then lit else st.buf.getD (st.buf.length - 1) 0

def LzAccumBuffer.last_n (st : LzAccumBuffer) (dist : Nat) : Except Err Nat :=
  if st.buf.length < dist then .error (.distOut dist st.buf.length)
  else listIndex st.buf (st.buf.length - dist)

def LzAccumBuffer.append_literal (st : LzAccumBuffer) (lit : Nat) :
    LzAccumBuffer × Except Err Unit :=
  if st.memlimit < st.len + 1 then (st, .error (.memLimit st.memlimit))
  else ({ st with buf := st.buf ++ [lit], len := st.len + 1 }, .ok ())

/-- The byte-by-byte copy loop of LzAccumBuffer.append_lz: read buf at offset
(panicking when out of bounds, as Rust indexing does), push it, advance. -/
def lzCopy (buf : List Nat) (offset : Nat) : Nat → Except Err (List Nat)
  | 0 => .ok buf
  | n + 1 =>
    match listIndex buf offset with
    | .error e => .error e
    | .ok x => lzCopy (buf ++ [x]) (offset + 1) n

def LzAccumBuffer.append_lz (st : LzAccumBuffer) (n dist : Nat) :
    LzAccumBuffer × Except Err Unit :=
  if st.buf.length < dist then (st, .error (.distOut dist st.buf.length))
  else
    match lzCopy st.buf (st.buf.length - dist) n with
    | .error e => (st, .error e)
    | .ok buf2 => ({ st with buf := buf2, len := st.len + n }, .ok ())

def LzAccumBuffer.append_bytes (st : LzAccumBuffer) (bs : List Nat) : LzAccumBuffer :=
  { st with buf := st.buf ++ bs, len := st.len + bs.length }

def LzAccumBuffer.reset (st : LzAccumBuffer) : LzAccumBuffer :=
  { st with stream := st.stream.writeAll st.buf, buf := [], len := 0 }

def LzAccumBuffer.finish (st : LzAccumBuffer) : Sink :=
  (st.stream.writeAll st.buf).flush

def LzAccumBuffer.into_output (st : LzAccumBuffer) : Sink :=
  st.stream

/-- The circular buffer: stream, backing region, dictionary size, memory
limit, cursor and total byte count, as in the Rust struct. -/
structure LzCircularBuffer where
  stream : Sink
  buf : List Nat
  dict_size : Nat
  memlimit : Nat
  cursor : Nat
  len : Nat

def LzCircularBuffer.from_stream (stream : Sink) (dict_size memlimit : Nat)
    (buf : List Nat) : LzCircularBuffer :=
  { stream := stream, buf := buf, dict_size := dict_size, memlimit := memlimit,
    cursor := 0, len := 0 }

/-- Reads a ring slot; never-written slots read as 0 (Vec get unwrap_or 0). -/
def LzCircularBuffer.get (st : LzCircularBuffer) (index : Nat) : Nat :=
  st.buf.getD index 0

/-- Writes a ring slot, growing the backing region on demand; growing beyond
memlimit fails. Returns the new backing region. -/
def LzCircularBuffer.set (st : LzCircularBuffer) (index value : Nat) :
    Except Err (List Nat) :=
  if st.buf.length < index + 1 then
    if index + 1 ≤ st.memlimit then .ok ((listResize st.buf (index + 1)).set index value)
    else .error (.memLimit st.memlimit)
  else .ok (st.buf.set index value)

def LzCircularBuffer.last_or (st : LzCircularBuffer) (lit : Nat) : Except Err Nat :=
  if st.len = 0 then .ok lit
  else
    match rustMod (st.dict_size + st.cursor - 1) st.dict_size with
    | .error e => .error e
    | .ok i => .ok (st.get i)

def LzCircularBuffer.last_n (st : LzCircularBuffer) (dist : Nat) : Except Err Nat :=
  if st.dict_size < dist then .error (.distDict dist st.dict_size)
  else if st.len < dist then .error (.distOut dist st.len)
  else
    match rustMod (st.dict_size + st.cursor - dist) st.dict_size with
    | .error e => .error e
    | .ok off => .ok (st.get off)

def LzCircularBuffer.append_literal (st : LzCircularBuffer) (lit : Nat) :
    LzCircularBuffer × Except Err Unit :=
  match st.set st.cursor lit with
  | .error e => (st, .error e)
  | .ok buf1 =>
    if st.cursor + 1 = st.dict_size then
      ({ st with buf := buf1, stream := st.stream.writeAll buf1, cursor := 0, len := st.len + 1 }, .ok ())
    else
      ({ st with buf := buf1, cursor := st.cursor + 1, len := st.len + 1 }, .ok ())

/-- The byte-by-byte copy loop of LzCircularBuffer.append_lz: read the rolling
offset, feed the byte through append_literal, advance and wrap the offset. -/
def lzLoop (st : LzCircularBuffer) (offset : Nat) : Nat → LzCircularBuffer × Except Err Unit
  | 0 => (st, .ok ())
  | n + 1 =>
    match st.append_literal (st.get offset) with
    | (st1, .error e) => (st1, .error e)
    | (st1, .ok _) =>
      lzLoop st1 (if offset + 1 = st1.dict_size then 0 else offset + 1) n

def LzCircularBuffer.append_lz (st : LzCircularBuffer) (n dist : Nat) :
    LzCircularBuffer × Except Err Unit :=
  if st.dict_size < dist then (st, .error (.distDict dist st.dict_size))
  else if st.len < dist then (st, .error (.distOut dist st.len))
  else
    match rustMod (st.dict_size + st.cursor - dist) st.dict_size with
    | .error e => (st, .error e)
    | .ok off => lzLoop st off n

def LzCircularBuffer.finish (st : LzCircularBuffer) : Sink :=
  if 0 < st.cursor then (st.stream.writeAll (st.buf.take st.cursor)).flush
  else st.stream

def LzCircularBuffer.into_output (st : LzCircularBuffer) : Sink :=
  st.stream

/-- One decoder token: a literal byte or an LZ back-reference. -/
inductive Op where
  | lit (b : Nat)
  | lz (n dist : Nat)
deriving DecidableEq

def LzAccumBuffer.step (st : LzAccumBuffer) : Op → LzAccumBuffer × Except Err Unit
  | .lit b => st.append_literal b
  | .lz n d => st.append_lz n d

def LzAccumBuffer.run (st : LzAccumBuffer) : List Op → LzAccumBuffer × Except Err Unit
  | [] => (st, .ok ())
  | op :: ops =>
    match st.step op with
    | (st1, .error e) => (st1, .error e)
    | (st1, .ok _) => st1.run ops

def LzCircularBuffer.step (st : LzCircularBuffer) : Op → LzCircularBuffer × Except Err Unit
  | .lit b => st.append_literal b
  | .lz n d => st.append_lz n d

def LzCircularBuffer.run (st : LzCircularBuffer) : List Op → LzCircularBuffer × Except Err Unit
  | [] => (st, .ok ())
  | op :: ops =>
    match st.step op with
    | (st1, .error e) => (st1, .error e)
    | (st1, .ok _) => st1.run ops

def litOps (bs : List Nat) : List Op := bs.map Op.lit

def sink0 : Sink := { written := [], flushes := 0 }

def accFresh (ml : Nat) : LzAccumBuffer := LzAccumBuffer.from_stream sink0 0 ml []

def circFresh (ds ml : Nat) : LzCircularBuffer :=
  LzCircularBuffer.from_stream sink0 ds ml []

/-- Reference model from the specification: a naive unbounded array. A literal
is a plain append; a back-reference is an element-by-element self-copy
starting at position length - dist, each copied byte immediately becoming
part of the array. -/
def naiveCopy (out : List Nat) (offset : Nat) : Nat → List Nat
  | 0 => out
  | n + 1 => naiveCopy (out ++ [out.getD offset 0]) (offset + 1) n

def naiveStep (out : List Nat) : Op → List Nat
  | .lit b => out ++ [b]
  | .lz n d => naiveCopy out (out.length - d) n

def naiveRun (out : List Nat) : List Op → List Nat
  | [] => out
  | op :: ops => naiveRun (naiveStep out op) ops

/-- Distance validity exactly as claim C1 words it: each distance is at most
the number of bytes emitted so far and, when a window bound is given, at most
that bound. -/
def distsOk (w : Option Nat) : Nat → List Op → Bool
  | _, [] => true
  | cnt, .lit _ :: ops => distsOk w (cnt + 1) ops
  | cnt, .lz n d :: ops =>
    decide (d ≤ cnt) &&
      (match w with | none => true | some wd => decide (d ≤ wd)) &&
      distsOk w (cnt + n) ops

/-- Every LZ back-reference in the list has distance at least 1. -/
def lzPos : List Op → Bool
  | [] => true
  | .lit _ :: ops => lzPos ops
  | .lz _ d :: ops => decide (1 ≤ d) && lzPos ops

/-- The periodic repetition of the d-byte suffix of out, of total length n. -/
def periodicBytes (out : List Nat) (d n : Nat) : List Nat :=
  (List.range n).map (fun i => (out.drop (out.length - d)).getD (i % d) 0)

/-- Whether a result is one of the two DistanceOutOfRange failures. -/
def isDistErr : Err → Bool
  | .distDict _ _ => true
  | .distOut _ _ => true
  | _ => false

def resDistErr {α : Type} : Except Err α → Bool
  | .error e => isDistErr e
  | .ok _ => false

/-- Simulation invariant tying a circular-buffer state to the output of the
naive reference model: len counts the output, the cursor is the output length
modulo the window size, the sink holds all completed windows, the backing
region has the lazily grown size, and every ring slot addressing one of the
last dict_size output positions holds that position's byte. -/
def CircInv (st : LzCircularBuffer) (out : List Nat) : Prop :=
  st.len = out.length ∧
  st.cursor = out.length % st.dict_size ∧
  st.stream.written = out.take (out.length - st.cursor) ∧
  (0 < st.dict_size → st.buf.length = min out.length st.dict_size) ∧
  (st.dict_size = 0 → st.buf.length = out.length) ∧
  (∀ p, p < out.length → (out.length ≤ p + st.dict_size ∨ st.dict_size = 0) →
    st.buf.getD (p % st.dict_size) 0 = out.getD p 0)

/-- Simulation invariant for the accumulating buffer started on a fresh sink:
its backing region is exactly the model output and nothing has been written
to the sink. -/
def AccumInv (st : LzAccumBuffer) (out : List Nat) : Prop :=
  st.buf = out ∧ st.len = out.length ∧ st.stream = sink0

/-- Structural bounds of the circular buffer: the cursor stays inside the
window and the backing region never exceeds the window size or the memory
limit. -/
def CircBounds (st : LzCircularBuffer) : Prop :=
  st.cursor < st.dict_size ∧ st.buf.length ≤ min st.dict_size st.memlimit

/- List and arithmetic helper lemmas. -/

lemma lk_getD_eq (l : List Nat) {n : Nat} (h : n < l.length) (d : Nat) :
    l.getD n d = l[n] :=
  List.getD_eq_getElem l d h

lemma lk_getD_set_self (l : List Nat) {i : Nat} (h : i < l.length) (v d : Nat) :
    (l.set i v).getD i d = v := by
  have h2 : i < (l.set i v).length := by simpa using h
  rw [lk_getD_eq _ h2]
  exact List.getElem_set_self h2

lemma lk_getD_set_ne (l : List Nat) {i j : Nat} (h : i ≠ j) (v d : Nat) :
    (l.set i v).getD j d = l.getD j d := by
  by_cases hj : j < l.length
  · have h2 : j < (l.set i v).length := by simpa using hj
    rw [lk_getD_eq _ h2, lk_getD_eq _ hj]
    exact List.getElem_set_ne h h2
  · rw [List.getD_eq_default, List.getD_eq_default] <;> simp at hj ⊢ <;> omega

lemma lk_getD_append (l l2 : List Nat) {n : Nat} (h : n < l.length) (d : Nat) :
    (l ++ l2).getD n d = l.getD n d :=
  List.getD_append l l2 d n h

lemma lk_getD_append_last (l : List Nat) (x d : Nat) :
    (l ++ [x]).getD l.length d = x := by
  rw [List.getD_append_right l [x] d l.length le_rfl]
  simp

lemma lk_getD_drop (l : List Nat) (k j d : Nat) :
    (l.drop k).getD j d = l.getD (k + j) d := by
  by_cases h : j < (l.drop k).length
  · have hk : k + j < l.length := by simp at h; omega
    rw [lk_getD_eq _ h, lk_getD_eq _ hk]
    exact List.getElem_drop l
  · rw [List.getD_eq_default, List.getD_eq_default] <;> simp at h ⊢ <;> omega

lemma lk_getD_take (l : List Nat) {k j : Nat} (h : j < k) (d : Nat) :
    (l.take k).getD j d = l.getD j d := by
  by_cases hj : j < l.length
  · have h2 : j < (l.take k).length := by simp; omega
    rw [lk_getD_eq _ h2, lk_getD_eq _ hj]
    exact List.getElem_take l
  · rw [List.getD_eq_default, List.getD_eq_default] <;> simp at hj ⊢ <;> omega

lemma lk_eq_of_getD (l1 l2 : List Nat) (hlen : l1.length = l2.length)
    (h : ∀ i, i < l1.length → l1.getD i 0 = l2.getD i 0) : l1 = l2 := by
  apply List.ext_getElem hlen
  intro n h1 h2
  have := h n h1
  rwa [lk_getD_eq _ h1, lk_getD_eq _ h2] at this

lemma lk_resize_snoc (l : List Nat) : listResize l (l.length + 1) = l ++ [0] := by
  unfold listResize
  rw [List.take_of_length_le (by omega)]
  congr 1
  simp

lemma lk_set_snoc (l : List Nat) (v : Nat) :
    (l ++ [(0 : Nat)]).set l.length v = l ++ [v] := by
  rw [List.set_append]
  simp

lemma lk_succ_mod (L D : Nat) (hD : 0 < D) :
    (L + 1) % D = if L % D + 1 = D then 0 else L % D + 1 := by
  have hlt : L % D < D := Nat.mod_lt _ hD
  conv_lhs => rw [← Nat.mod_add_div L D, Nat.add_right_comm, Nat.add_mul_mod_self_left]
  by_cases h : L % D + 1 = D
  · rw [if_pos h, h, Nat.mod_self]
  · rw [if_neg h, Nat.mod_eq_of_lt (by omega)]

lemma lk_mod_shift (L D d : Nat) (hdD : d ≤ D) (hdL : d ≤ L) :
    (D + L % D - d) % D = (L - d) % D := by
  obtain ⟨q, hq⟩ : ∃ q, L = D * q + L % D := ⟨L / D, by have := Nat.div_add_mod L D; omega⟩
  have hr : L % D ≤ L := Nat.mod_le L D
  by_cases hdr : d ≤ L % D
  · have h1 : D + L % D - d = D + (L % D - d) := by omega
    have h2 : L - d = D * q + (L % D - d) := by omega
    rw [h1, h2, Nat.add_comm D, Nat.add_mod_right, Nat.mul_add_mod]
  · have hq1 : 1 ≤ q := by
      by_contra hq0
      have hq2 : q = 0 := by omega
      rw [hq2, Nat.mul_zero, Nat.zero_add] at hq
      omega
    have h2 : L - d = D * (q - 1) + (D + L % D - d) := by
      have : D * q = D * (q - 1) + D := by
        have : q - 1 + 1 = q := by omega
        calc D * q = D * (q - 1 + 1) := by rw [this]
        _ = D * (q - 1) + D := by ring
      omega
    rw [h2, Nat.mul_add_mod]

lemma lk_mod_ne {p L D : Nat} (h1 : p < L) (h2 : L < p + D) : p % D ≠ L % D := by
  intro h
  have hdvd : D ∣ L - p := (Nat.modEq_iff_dvd' (le_of_lt h1)).1 h
  have := Nat.le_of_dvd (by omega) hdvd
  omega

lemma lk_mod_add (q j D : Nat) (hj : j < D) : (D * q + j) % D = j := by
  rw [Nat.mul_add_mod]
  exact Nat.mod_eq_of_lt hj

lemma lk_sub_mod_exists (L D : Nat) : ∃ q, L - L % D = D * q :=
  ⟨L / D, by have := Nat.div_add_mod L D; omega⟩

/- Lemmas about the accumulating buffer. -/

lemma naiveCopy_length (n : Nat) : ∀ out offset,
    (naiveCopy out offset n).length = out.length + n := by
  induction n with
  | zero => intro out offset; rfl
  | succ n ih =>
    intro out offset
    simp only [naiveCopy]
    rw [ih]
    simp
    omega

lemma lzCopy_ok (n : Nat) : ∀ buf offset, offset < buf.length →
    lzCopy buf offset n = .ok (naiveCopy buf offset n) := by
  induction n with
  | zero => intros; rfl
  | succ n ih =>
    intro buf offset h
    simp only [lzCopy, naiveCopy, listIndex, if_pos h]
    exact ih (buf ++ [buf.getD offset 0]) (offset + 1) (by simp; omega)

lemma acc_run_nil (st : LzAccumBuffer) : st.run [] = (st, .ok ()) := rfl

lemma acc_run_cons_err {st st1 : LzAccumBuffer} {op : Op} {e : Err} (ops : List Op)
    (h : st.step op = (st1, .error e)) : st.run (op :: ops) = (st1, .error e) := by
  simp only [LzAccumBuffer.run, h]

lemma acc_run_cons_ok {st st1 : LzAccumBuffer} {op : Op} (ops : List Op)
    (h : st.step op = (st1, .ok ())) : st.run (op :: ops) = st1.run ops := by
  simp only [LzAccumBuffer.run, h]

lemma acc_run_inv (ops : List Op) : ∀ st out, AccumInv st out →
    distsOk none out.length ops = true →
    (st.run ops).2 = .ok () →
    AccumInv (st.run ops).1 (naiveRun out ops) := by
  induction ops with
  | nil => intro st out hInv _ _; exact hInv
  | cons op ops ih =>
    intro st out hInv hok hrun
    obtain ⟨hbuf, hlen, hstream⟩ := hInv
    match op with
    | .lit b =>
      by_cases hml : st.memlimit < st.len + 1
      · have hstep : st.step (.lit b) = (st, .error (.memLimit st.memlimit)) := by
          simp only [LzAccumBuffer.step, LzAccumBuffer.append_literal, if_pos hml]
        rw [acc_run_cons_err ops hstep] at hrun
        exact absurd hrun (by simp)
      · have hstep : st.step (.lit b) =
            ({ st with buf := st.buf ++ [b], len := st.len + 1 }, .ok ()) := by
          simp only [LzAccumBuffer.step, LzAccumBuffer.append_literal, if_neg hml]
        rw [acc_run_cons_ok ops hstep] at hrun ⊢
        have hInv1 : AccumInv { st with buf := st.buf ++ [b], len := st.len + 1 }
            (naiveStep out (.lit b)) := by
          refine ⟨by rw [hbuf]; rfl, ?_, hstream⟩
          simp [naiveStep, hlen]
        have hok1 : distsOk none (naiveStep out (.lit b)).length ops = true := by
          simpa [naiveStep, distsOk] using hok
        exact ih _ _ hInv1 hok1 hrun
    | .lz n d =>
      simp only [distsOk, Bool.and_eq_true, decide_eq_true_eq] at hok
      obtain ⟨⟨hd, -⟩, hrest⟩ := hok
      have hnd : ¬ st.buf.length < d := by rw [hbuf]; omega
      match n with
      | 0 =>
        have hstep : st.step (.lz 0 d) = ({ st with buf := st.buf, len := st.len + 0 }, .ok ()) := by
          simp only [LzAccumBuffer.step, LzAccumBuffer.append_lz, if_neg hnd, lzCopy]
        rw [acc_run_cons_ok ops hstep] at hrun ⊢
        have hInv1 : AccumInv { st with buf := st.buf, len := st.len + 0 }
            (naiveStep out (.lz 0 d)) := by
          refine ⟨by rw [hbuf]; rfl, by simp [naiveStep, naiveCopy, hlen], hstream⟩
        have hok1 : distsOk none (naiveStep out (.lz 0 d)).length ops = true := by
          have hL : (naiveStep out (.lz 0 d)).length = out.length + 0 := by
            simp [naiveStep, naiveCopy]
        
          rw [hL]; exact hrest
        exact ih _ _ hInv1 hok1 hrun
      | m + 1 =>
        by_cases hd0 : d = 0
        · have hoob : ¬ st.buf.length - d < st.buf.length := by omega
          have hstep : st.step (.lz (m + 1) d) = (st, .error .fatal) := by
            simp only [LzAccumBuffer.step, LzAccumBuffer.append_lz, if_neg hnd, lzCopy,
              listIndex, if_neg hoob]
          rw [acc_run_cons_err ops hstep] at hrun
          exact absurd hrun (by simp)
        · have hoff : st.buf.length - d < st.buf.length := by rw [hbuf]; omega
          have hcopy := lzCopy_ok (m + 1) st.buf (st.buf.length - d) hoff
          have hstep : st.step (.lz (m + 1) d) =
              ({ st with
                  buf := naiveCopy st.buf (st.buf.length - d) (m + 1)
                  len := st.len + (m + 1) }, .ok ()) := by
            simp only [LzAccumBuffer.step, LzAccumBuffer.append_lz, if_neg hnd, hcopy]
          rw [acc_run_cons_ok ops hstep] at hrun ⊢
          have hInv1 : AccumInv { st with
              buf := naiveCopy st.buf (st.buf.length - d) (m + 1)
              len := st.len + (m + 1) } (naiveStep out (.lz (m + 1) d)) := by
            refine ⟨by rw [hbuf]; rfl, ?_, hstream⟩
            show st.len + (m + 1) = (naiveStep out (.lz (m + 1) d)).length
            simp only [naiveStep, naiveCopy_length]
            omega
          have hok1 : distsOk none (naiveStep out (.lz (m + 1) d)).length ops = true := by
            have hL : (naiveStep out (.lz (m + 1) d)).length = out.length + (m + 1) := by
              simp [naiveStep, naiveCopy_length]
            rw [hL]; exact hrest
          exact ih _ _ hInv1 hok1 hrun

lemma acc_litrun_ok (bs : List Nat) : ∀ st : LzAccumBuffer,
    st.len + bs.length ≤ st.memlimit →
    st.run (litOps bs) = ({ st with buf := st.buf ++ bs, len := st.len + bs.length }, .ok ()) := by
  induction bs with
  | nil =>
    intro st h
    obtain ⟨s, buf, ml, L⟩ := st
    simp [litOps, acc_run_nil]
  | cons b bs ih =>
    intro st h
    have hml : ¬ st.memlimit < st.len + 1 := by simp at h; omega
    have hstep : st.step (.lit b) =
        ({ st with buf := st.buf ++ [b], len := st.len + 1 }, .ok ()) := by
      simp only [LzAccumBuffer.step, LzAccumBuffer.append_literal, if_neg hml]
    have hlit : litOps (b :: bs) = Op.lit b :: litOps bs := rfl
    rw [hlit, acc_run_cons_ok _ hstep, ih _ (by simp at h ⊢; omega)]
    obtain ⟨s, buf, ml, L⟩ := st
    simp [List.append_assoc]
    omega

/- Lemmas about the circular buffer. -/

lemma circ_run_nil (st : LzCircularBuffer) : st.run [] = (st, .ok ()) := rfl

lemma circ_run_cons_err {st st1 : LzCircularBuffer} {op : Op} {e : Err} (ops : List Op)
    (h : st.step op = (st1, .error e)) : st.run (op :: ops) = (st1, .error e) := by
  simp only [LzCircularBuffer.run, h]

lemma circ_run_cons_ok {st st1 : LzCircularBuffer} {op : Op} (ops : List Op)
    (h : st.step op = (st1, .ok ())) : st.run (op :: ops) = st1.run ops := by
  simp only [LzCircularBuffer.run, h]

lemma circ_set_grow_ok {st : LzCircularBuffer} {v : Nat}
    (hgrow : st.buf.length < st.cursor + 1) (hml : st.cursor + 1 ≤ st.memlimit) :
    st.set st.cursor v = .ok ((listResize st.buf (st.cursor + 1)).set st.cursor v) := by
  unfold LzCircularBuffer.set
  rw [if_pos hgrow, if_pos hml]

lemma circ_set_grow_err {st : LzCircularBuffer} {v : Nat}
    (hgrow : st.buf.length < st.cursor + 1) (hml : ¬ st.cursor + 1 ≤ st.memlimit) :
    st.set st.cursor v = .error (.memLimit st.memlimit) := by
  unfold LzCircularBuffer.set
  rw [if_pos hgrow, if_neg hml]

lemma circ_set_nogrow {st : LzCircularBuffer} {v : Nat}
    (hgrow : ¬ st.buf.length < st.cursor + 1) :
    st.set st.cursor v = .ok (st.buf.set st.cursor v) := by
  unfold LzCircularBuffer.set
  rw [if_neg hgrow]

lemma circ_lit_eq_of_set {st : LzCircularBuffer} {v : Nat} {buf1 : List Nat}
    (hset : st.set st.cursor v = .ok buf1) :
    st.append_literal v =
      if st.cursor + 1 = st.dict_size then
        ({ st with buf := buf1, stream := st.stream.writeAll buf1, cursor := 0, len := st.len + 1 }, .ok ())
      else
        ({ st with buf := buf1, cursor := st.cursor + 1, len := st.len + 1 }, .ok ()) := by
  unfold LzCircularBuffer.append_literal
  rw [hset]

lemma circ_lit_eq_of_set_err {st : LzCircularBuffer} {v : Nat} {e : Err}
    (hset : st.set st.cursor v = .error e) :
    st.append_literal v = (st, .error e) := by
  unfold LzCircularBuffer.append_literal
  rw [hset]

lemma wrap_drop_eq {out : List Nat} {D : Nat} (buf1 : List Nat) (b : Nat)
    (hD : 0 < D)
    (hlen1 : buf1.length = D)
    (hslotC : buf1.getD (D - 1) 0 = b)
    (hslotOld : ∀ j, j < D - 1 → buf1.getD j 0 = out.getD (out.length + 1 - D + j) 0)
    (hLD : D ≤ out.length + 1) :
    buf1 = (out ++ [b]).drop (out.length + 1 - D) := by
  apply lk_eq_of_getD
  · simp [hlen1]
    omega
  · intro j hj
    rw [hlen1] at hj
    rw [lk_getD_drop]
    by_cases hje : j = D - 1
    · subst hje
      have harg : out.length + 1 - D + (D - 1) = out.length := by omega
      rw [harg, lk_getD_append_last, hslotC]
    · have hjlt : j < D - 1 := by omega
      have harg : out.length + 1 - D + j < out.length := by omega
      rw [lk_getD_append _ _ harg, hslotOld j hjlt]

lemma circ_lit_inv_core {st : LzCircularBuffer} {out : List Nat} {b : Nat} {buf1 : List Nat}
    (hlen : st.len = out.length)
    (hcur : st.cursor = out.length % st.dict_size)
    (hwr : st.stream.written = out.take (out.length - st.cursor))
    (hblpos : 0 < st.dict_size → st.buf.length = min out.length st.dict_size)
    (hbl0 : st.dict_size = 0 → st.buf.length = out.length)
    (hslot : ∀ p, p < out.length → (out.length ≤ p + st.dict_size ∨ st.dict_size = 0) →
      st.buf.getD (p % st.dict_size) 0 = out.getD p 0)
    (hset : st.set st.cursor b = .ok buf1)
    (hfC : buf1.getD st.cursor 0 = b)
    (hfNe : ∀ j, j ≠ st.cursor → buf1.getD j 0 = st.buf.getD j 0)
    (hfLen : buf1.length = max st.buf.length (st.cursor + 1)) :
    CircInv (st.append_literal b).1 (out ++ [b]) ∧
    (st.append_literal b).1.dict_size = st.dict_size ∧
    (st.append_literal b).1.memlimit = st.memlimit := by
  have hout1 : (out ++ [b]).length = out.length + 1 := by simp
  by_cases hD : st.dict_size = 0
  · -- dict_size equal to zero: the buffer never wraps and grows forever.
    have hC : st.cursor = out.length := by rw [hcur, hD, Nat.mod_zero]
    have hwrap : ¬ st.cursor + 1 = st.dict_size := by omega
    rw [circ_lit_eq_of_set hset, if_neg hwrap]
    unfold CircInv
    dsimp only
    rw [hout1]
    refine ⟨⟨by omega, ?_, ?_, by omega, ?_, ?_⟩, rfl, rfl⟩
    · rw [hD, Nat.mod_zero, hC]
    · rw [hC, Nat.sub_self, List.take_zero, hwr, hC, Nat.sub_self, List.take_zero]
    · intro _
      rw [hfLen, hbl0 hD, hC]
      omega
    · intro p hp _
      rw [hD, Nat.mod_zero]
      by_cases hpL : p = out.length
      · subst hpL
        rw [lk_getD_append_last, ← hC]
        exact hfC
      · have hpl : p < out.length := by omega
        rw [lk_getD_append _ _ hpl, hfNe p (by omega), ← hslot p hpl (Or.inr hD), hD,
          Nat.mod_zero]
  · have hD' : 0 < st.dict_size := Nat.pos_of_ne_zero hD
    have hCD : st.cursor < st.dict_size := by rw [hcur]; exact Nat.mod_lt _ hD'
    have hCL : st.cursor ≤ out.length := by rw [hcur]; exact Nat.mod_le _ _
    have hBlen := hblpos hD'
    have hClow : out.length < st.dict_size → st.cursor = out.length := by
      intro hLltD
      rw [hcur, Nat.mod_eq_of_lt hLltD]
    by_cases hwrap : st.cursor + 1 = st.dict_size
    · -- wrap: the whole window is flushed to the sink and the cursor resets.
      have hzero : (out.length + 1) % st.dict_size = 0 := by
        rw [lk_succ_mod _ _ hD', if_pos (by omega)]
      have hLD : st.dict_size ≤ out.length + 1 := by omega
      have hlen1 : buf1.length = st.dict_size := by
        rw [hfLen, hBlen]
        have := Nat.min_le_right out.length st.dict_size
        omega
      have hslotOld : ∀ j, j < st.dict_size - 1 →
          buf1.getD j 0 = out.getD (out.length + 1 - st.dict_size + j) 0 := by
        intro j hj
        have hjC : j ≠ st.cursor := by omega
        have hjD : j < st.dict_size := by omega
        have hpmod : (out.length + 1 - st.dict_size + j) % st.dict_size = j := by
          have h1 : out.length + 1 - st.dict_size + j + st.dict_size = out.length + 1 + j := by
            omega
          have h2 : (out.length + 1 - st.dict_size + j) % st.dict_size
              = (out.length + 1 + j) % st.dict_size := by
            rw [← Nat.add_mod_right (out.length + 1 - st.dict_size + j) st.dict_size, h1]
          rw [h2, Nat.add_mod, hzero, Nat.zero_add]
          simp [Nat.mod_eq_of_lt hjD]
        have hpl : out.length + 1 - st.dict_size + j < out.length := by omega
        have hpw : out.length ≤ out.length + 1 - st.dict_size + j + st.dict_size := by omega
        rw [hfNe j hjC, ← hslot _ hpl (Or.inl hpw), hpmod]
      have hdrop : buf1 = (out ++ [b]).drop (out.length + 1 - st.dict_size) :=
        wrap_drop_eq buf1 b hD' hlen1 (by rw [← hfC]; congr 1; omega) hslotOld hLD
      rw [circ_lit_eq_of_set hset, if_pos hwrap]
      unfold CircInv Sink.writeAll
      dsimp only
      rw [hout1]
      refine ⟨⟨by omega, by omega, ?_, ?_, by omega, ?_⟩, rfl, rfl⟩
      · rw [Nat.sub_zero, List.take_of_length_le (by rw [hout1]), hwr, hdrop]
        have hLC : out.length - st.cursor = out.length + 1 - st.dict_size := by omega
        have htk : (out ++ [b]).take (out.length + 1 - st.dict_size) =
            out.take (out.length + 1 - st.dict_size) :=
          List.take_append_of_le_length (by omega)
        rw [hLC, ← htk, List.take_append_drop]
      · intro _
        rw [hlen1]
        omega
      · intro p hp hpw
        by_cases hpL : p = out.length
        · subst hpL
          rw [lk_getD_append_last, ← hcur]
          exact hfC
        · have hpl : p < out.length := by omega
          have hpC : p % st.dict_size ≠ st.cursor := by
            rw [hcur]
            exact lk_mod_ne hpl (by omega)
          rw [lk_getD_append _ _ hpl, hfNe _ hpC, ← hslot p hpl (Or.inl (by omega))]
    · -- no wrap: the cursor advances and nothing is flushed.
      have hmod1 : (out.length + 1) % st.dict_size = st.cursor + 1 := by
        rw [lk_succ_mod _ _ hD', ← hcur, if_neg hwrap]
      rw [circ_lit_eq_of_set hset, if_neg hwrap]
      unfold CircInv
      dsimp only
      rw [hout1]
      refine ⟨⟨by omega, by omega, ?_, ?_, by omega, ?_⟩, rfl, rfl⟩
      · have h1 : out.length + 1 - (st.cursor + 1) = out.length - st.cursor := by omega
        rw [h1, List.take_append_of_le_length (by omega), hwr]
      · intro _
        rw [hfLen, hBlen]
        by_cases hLltD : out.length < st.dict_size
        · have hCeq := hClow hLltD
          omega
        · omega
      · intro p hp hpw
        by_cases hpL : p = out.length
        · subst hpL
          rw [lk_getD_append_last, ← hcur]
          exact hfC
        · have hpl : p < out.length := by omega
          have hpC : p % st.dict_size ≠ st.cursor := by
            rw [hcur]
            exact lk_mod_ne hpl (by omega)
          rw [lk_getD_append _ _ hpl, hfNe _ hpC, ← hslot p hpl (Or.inl (by omega))]

lemma circ_lit_inv {st : LzCircularBuffer} {out : List Nat} (b : Nat)
    (hInv : CircInv st out)
    (hok : (st.append_literal b).2 = .ok ()) :
    CircInv (st.append_literal b).1 (out ++ [b]) ∧
    (st.append_literal b).1.dict_size = st.dict_size ∧
    (st.append_literal b).1.memlimit = st.memlimit := by
  obtain ⟨hlen, hcur, hwr, hblpos, hbl0, hslot⟩ := hInv
  by_cases hgrow : st.buf.length < st.cursor + 1
  · by_cases hml : st.cursor + 1 ≤ st.memlimit
    · -- grow path: in every reachable state this appends one byte at the end.
      have hBC : st.buf.length = st.cursor := by
        by_cases hD : st.dict_size = 0
        · rw [hbl0 hD, hcur, hD, Nat.mod_zero]
        · have hD' : 0 < st.dict_size := Nat.pos_of_ne_zero hD
          have hCD : st.cursor < st.dict_size := by rw [hcur]; exact Nat.mod_lt _ hD'
          have hBlen := hblpos hD'
          by_cases hLD : out.length < st.dict_size
          · rw [hBlen, Nat.min_eq_left (le_of_lt hLD), hcur, Nat.mod_eq_of_lt hLD]
          · exfalso
            rw [hBlen] at hgrow
            omega
      have hb1eq : (listResize st.buf (st.cursor + 1)).set st.cursor b = st.buf ++ [b] := by
        rw [← hBC, lk_resize_snoc, lk_set_snoc]
      have hset := circ_set_grow_ok (v := b) hgrow hml
      rw [hb1eq] at hset
      have hfC : (st.buf ++ [b]).getD st.cursor 0 = b := by
        rw [← hBC]
        exact lk_getD_append_last _ _ _
      have hfNe : ∀ j, j ≠ st.cursor → (st.buf ++ [b]).getD j 0 = st.buf.getD j 0 := by
        intro j hj
        by_cases hjB : j < st.buf.length
        · exact lk_getD_append _ _ hjB _
        · rw [List.getD_eq_default _ _ (by simp; omega), List.getD_eq_default _ _ (by omega)]
      have hfLen : (st.buf ++ [b]).length = max st.buf.length (st.cursor + 1) := by
        simp [hBC]
      exact circ_lit_inv_core hlen hcur hwr hblpos hbl0 hslot hset hfC hfNe hfLen
    · exfalso
      rw [circ_lit_eq_of_set_err (circ_set_grow_err hgrow hml)] at hok
      simp at hok
  · -- no growth: plain in-place update of the cursor slot.
    have hset := circ_set_nogrow (v := b) hgrow
    have hfC : (st.buf.set st.cursor b).getD st.cursor 0 = b :=
      lk_getD_set_self _ (by omega) _ _
    have hfNe : ∀ j, j ≠ st.cursor → (st.buf.set st.cursor b).getD j 0 = st.buf.getD j 0 := by
      intro j hj
      exact lk_getD_set_ne _ (fun h => hj h.symm) _ _
    have hfLen : (st.buf.set st.cursor b).length = max st.buf.length (st.cursor + 1) := by
      simp
      omega
    exact circ_lit_inv_core hlen hcur hwr hblpos hbl0 hslot hset hfC hfNe hfLen

lemma lzLoop_inv (n : Nat) : ∀ (st : LzCircularBuffer) (out : List Nat) (p : Nat),
    CircInv st out → 0 < st.dict_size → p < out.length →
    out.length ≤ p + st.dict_size →
    (lzLoop st (p % st.dict_size) n).2 = .ok () →
    CircInv (lzLoop st (p % st.dict_size) n).1 (naiveCopy out p n) ∧
    (lzLoop st (p % st.dict_size) n).1.dict_size = st.dict_size ∧
    (lzLoop st (p % st.dict_size) n).1.memlimit = st.memlimit := by
  induction n with
  | zero => intro st out p hInv _ _ _ _; exact ⟨hInv, rfl, rfl⟩
  | succ n ih =>
    intro st out p hInv hD hp hw hok
    have hx : st.get (p % st.dict_size) = out.getD p 0 :=
      hInv.2.2.2.2.2 p hp (Or.inl hw)
    rcases hstep : st.append_literal (st.get (p % st.dict_size)) with ⟨st1, e⟩
    cases e with
    | error err =>
      have hE : (lzLoop st (p % st.dict_size) (n + 1)).2 = .error err := by
        simp only [lzLoop, hstep]
      rw [hE] at hok
      exact absurd hok (by simp)
    | ok u =>
      cases u
      have hlit : (st.append_literal (st.get (p % st.dict_size))).2 = .ok () := by
        rw [hstep]
      have hcore := circ_lit_inv _ hInv hlit
      rw [hstep] at hcore
      dsimp only at hcore
      obtain ⟨hInv1, hds1, hml1⟩ := hcore
      rw [hx] at hInv1
      have hloop : lzLoop st (p % st.dict_size) (n + 1) =
          lzLoop st1 (if p % st.dict_size + 1 = st1.dict_size then 0
            else p % st.dict_size + 1) n := by
        simp only [lzLoop, hstep]
      have hoff : (if p % st.dict_size + 1 = st1.dict_size then 0
          else p % st.dict_size + 1) = (p + 1) % st1.dict_size := by
        rw [hds1]
        exact (lk_succ_mod p _ hD).symm
      rw [hloop, hoff] at hok ⊢
      have hres := ih st1 (out ++ [out.getD p 0]) (p + 1) hInv1
        (by rw [hds1]; exact hD) (by simp; omega) (by rw [hds1]; simp; omega) hok
      refine ⟨?_, ?_, ?_⟩
      · have hncopy : naiveCopy out p (n + 1) = naiveCopy (out ++ [out.getD p 0]) (p + 1) n := rfl
        rw [hncopy]
        exact hres.1
      · rw [hres.2.1, hds1]
      · rw [hres.2.2, hml1]

lemma circ_run_inv (ops : List Op) : ∀ (st : LzCircularBuffer) (out : List Nat),
    CircInv st out →
    distsOk (some st.dict_size) out.length ops = true →
    lzPos ops = true →
    (st.run ops).2 = .ok () →
    CircInv (st.run ops).1 (naiveRun out ops) ∧
    (st.run ops).1.dict_size = st.dict_size := by
  induction ops with
  | nil => intro st out hInv _ _ _; exact ⟨hInv, rfl⟩
  | cons op ops ih =>
    intro st out hInv hok hpos hrun
    match op with
    | .lit b =>
      rcases hstep : st.step (.lit b) with ⟨st1, e⟩
      cases e with
      | error err =>
        rw [circ_run_cons_err ops hstep] at hrun
        exact absurd hrun (by simp)
      | ok u =>
        cases u
        have hstl : st.step (.lit b) = st.append_literal b := rfl
        have hlit : (st.append_literal b).2 = .ok () := by rw [← hstl, hstep]
        have hcore := circ_lit_inv b hInv hlit
        have h1 : (st.append_literal b).1 = st1 := by rw [← hstl, hstep]
        rw [h1] at hcore
        obtain ⟨hInv1, hds1, -⟩ := hcore
        rw [circ_run_cons_ok ops hstep] at hrun ⊢
        have hres := ih st1 (out ++ [b]) hInv1
          (by rw [hds1]; simpa [distsOk] using hok)
          (by simpa [lzPos] using hpos) hrun
        have hnr : naiveRun out (.lit b :: ops) = naiveRun (out ++ [b]) ops := rfl
        rw [hnr]
        exact ⟨hres.1, hres.2.trans hds1⟩
    | .lz n d =>
      have hok2 : (d ≤ out.length ∧ d ≤ st.dict_size) ∧
          distsOk (some st.dict_size) (out.length + n) ops = true := by
        simpa [distsOk, Bool.and_eq_true, decide_eq_true_eq] using hok
      obtain ⟨⟨hdL, hdD⟩, hrest⟩ := hok2
      have hpos2 : 1 ≤ d ∧ lzPos ops = true := by
        simpa [lzPos, Bool.and_eq_true, decide_eq_true_eq] using hpos
      obtain ⟨hd1, hposrest⟩ := hpos2
      have hD' : 0 < st.dict_size := by omega
      have hv1 : ¬ st.dict_size < d := by omega
      have hv2 : ¬ st.len < d := by rw [hInv.1]; omega
      have hmod : rustMod (st.dict_size + st.cursor - d) st.dict_size =
          .ok ((out.length - d) % st.dict_size) := by
        unfold rustMod
        rw [if_neg (by omega)]
        congr 1
        rw [hInv.2.1]
        exact lk_mod_shift out.length st.dict_size d hdD hdL
      have hstep_eq : st.step (.lz n d) = lzLoop st ((out.length - d) % st.dict_size) n := by
        show st.append_lz n d = _
        unfold LzCircularBuffer.append_lz
        rw [if_neg hv1, if_neg hv2, hmod]
      rcases hpair : lzLoop st ((out.length - d) % st.dict_size) n with ⟨st2, e2⟩
      have hstep2 : st.step (.lz n d) = (st2, e2) := hstep_eq.trans hpair
      cases e2 with
      | error err =>
        rw [circ_run_cons_err ops hstep2] at hrun
        exact absurd hrun (by simp)
      | ok u =>
        cases u
        have hp : out.length - d < out.length := by omega
        have hw : out.length ≤ (out.length - d) + st.dict_size := by omega
        have hloopinv := lzLoop_inv n st out (out.length - d) hInv hD' hp hw
          (by rw [hpair])
        rw [hpair] at hloopinv
        obtain ⟨hInv2, hds2, -⟩ := hloopinv
        rw [circ_run_cons_ok ops hstep2] at hrun ⊢
        have hlenc : (naiveCopy out (out.length - d) n).length = out.length + n :=
          naiveCopy_length n out _
        have hres := ih st2 (naiveCopy out (out.length - d) n) hInv2
          (by rw [hds2, hlenc]; exact hrest) hposrest hrun
        have hnr : naiveRun out (.lz n d :: ops) =
            naiveRun (naiveCopy out (out.length - d) n) ops := rfl
        rw [hnr]
        exact ⟨hres.1, hres.2.trans hds2⟩

lemma circ_fresh_inv (ds ml : Nat) : CircInv (circFresh ds ml) [] := by
  refine ⟨rfl, by simp [circFresh, LzCircularBuffer.from_stream], rfl,
    by intro _; simp [circFresh, LzCircularBuffer.from_stream], by intro _; rfl, ?_⟩
  intro p hp
  simp at hp

lemma acc_fresh_inv (ml : Nat) : AccumInv (accFresh ml) [] :=
  ⟨rfl, rfl, rfl⟩

lemma circ_take_cursor {st : LzCircularBuffer} {out : List Nat} (hInv : CircInv st out) :
    st.buf.take st.cursor = out.drop (out.length - st.cursor) := by
  obtain ⟨hlen, hcur, hwr, hblpos, hbl0, hslot⟩ := hInv
  have hCL : st.cursor ≤ out.length := by rw [hcur]; exact Nat.mod_le _ _
  have hCB : st.cursor ≤ st.buf.length := by
    by_cases hD : st.dict_size = 0
    · rw [hbl0 hD, hcur, hD, Nat.mod_zero]
    · have hD' : 0 < st.dict_size := Nat.pos_of_ne_zero hD
      have hCD : st.cursor < st.dict_size := by rw [hcur]; exact Nat.mod_lt _ hD'
      rw [hblpos hD']
      omega
  apply lk_eq_of_getD
  · simp
    omega
  · intro j hj
    have hjC : j < st.cursor := by simp at hj; omega
    rw [lk_getD_take _ hjC, lk_getD_drop]
    have hp : out.length - st.cursor + j < out.length := by omega
    have hpmod : (out.length - st.cursor + j) % st.dict_size = j := by
      by_cases hD : st.dict_size = 0
      · rw [hD, Nat.mod_zero, hcur, hD, Nat.mod_zero]
        omega
      · have hD' : 0 < st.dict_size := Nat.pos_of_ne_zero hD
        have hCD : st.cursor < st.dict_size := by rw [hcur]; exact Nat.mod_lt _ hD'
        obtain ⟨q, hq⟩ := lk_sub_mod_exists out.length st.dict_size
        have h1 : out.length - st.cursor = st.dict_size * q := by rw [← hq, hcur]
        rw [h1, lk_mod_add _ _ _ (by omega)]
    have hw2 : out.length ≤ out.length - st.cursor + j + st.dict_size ∨ st.dict_size = 0 := by
      by_cases hD : st.dict_size = 0
      · exact Or.inr hD
      · have hD' : 0 < st.dict_size := Nat.pos_of_ne_zero hD
        have hCD : st.cursor < st.dict_size := by rw [hcur]; exact Nat.mod_lt _ hD'
        exact Or.inl (by omega)
    rw [← hslot _ hp hw2, hpmod]

lemma circ_finish_inv {st : LzCircularBuffer} {out : List Nat} (hInv : CircInv st out) :
    (st.finish).written = out := by
  have hwr := hInv.2.2.1
  have hCL : st.cursor ≤ out.length := by
    rw [hInv.2.1]
    exact Nat.mod_le _ _
  unfold LzCircularBuffer.finish
  by_cases hc : 0 < st.cursor
  · rw [if_pos hc]
    show st.stream.written ++ st.buf.take st.cursor = out
    rw [hwr, circ_take_cursor hInv, List.take_append_drop]
  · rw [if_neg hc]
    rw [hwr]
    have h0 : st.cursor = 0 := by omega
    rw [h0, Nat.sub_zero]
    exact List.take_of_length_le le_rfl

lemma naiveRun_litOps (bs : List Nat) : ∀ out, naiveRun out (litOps bs) = out ++ bs := by
  induction bs with
  | nil => intro out; simp [litOps, naiveRun]
  | cons b bs ih =>
    intro out
    have h1 : naiveRun out (litOps (b :: bs)) = naiveRun (out ++ [b]) (litOps bs) := rfl
    rw [h1, ih]
    simp

lemma distsOk_litOps (w : Option Nat) (bs : List Nat) : ∀ cnt,
    distsOk w cnt (litOps bs) = true := by
  induction bs with
  | nil => intro cnt; rfl
  | cons b bs ih => intro cnt; exact ih (cnt + 1)

lemma lzPos_litOps (bs : List Nat) : lzPos (litOps bs) = true := by
  induction bs with
  | nil => rfl
  | cons b bs ih => exact ih

lemma circ_lit_ok_of_inv {st : LzCircularBuffer} {out : List Nat} (b : Nat)
    (hInv : CircInv st out) (hD : 0 < st.dict_size) (hml : st.dict_size ≤ st.memlimit) :
    (st.append_literal b).2 = .ok () := by
  have hCD : st.cursor < st.dict_size := by
    rw [hInv.2.1]
    exact Nat.mod_lt _ hD
  by_cases hgrow : st.buf.length < st.cursor + 1
  · have hm : st.cursor + 1 ≤ st.memlimit := by omega
    rw [circ_lit_eq_of_set (circ_set_grow_ok hgrow hm)]
    by_cases hwrap : st.cursor + 1 = st.dict_size
    · rw [if_pos hwrap]
    · rw [if_neg hwrap]
  · rw [circ_lit_eq_of_set (circ_set_nogrow hgrow)]
    by_cases hwrap : st.cursor + 1 = st.dict_size
    · rw [if_pos hwrap]
    · rw [if_neg hwrap]

lemma circ_litrun_ok (bs : List Nat) : ∀ (st : LzCircularBuffer) (out : List Nat),
    CircInv st out → 0 < st.dict_size → st.dict_size ≤ st.memlimit →
    (st.run (litOps bs)).2 = .ok () := by
  induction bs with
  | nil => intro st out _ _ _; rfl
  | cons b bs ih =>
    intro st out hInv hD hml
    have hok := circ_lit_ok_of_inv b hInv hD hml
    rcases hstep : st.append_literal b with ⟨st1, e⟩
    rw [hstep] at hok
    cases e with
    | error err => exact absurd hok (by simp)
    | ok u =>
      cases u
      have hcore := circ_lit_inv b hInv (by rw [hstep])
      rw [hstep] at hcore
      dsimp only at hcore
      obtain ⟨hInv1, hds1, hml1⟩ := hcore
      have hlit : litOps (b :: bs) = Op.lit b :: litOps bs := rfl
      have hstepop : st.step (.lit b) = (st1, .ok ()) := hstep
      rw [hlit, circ_run_cons_ok _ hstepop]
      exact ih st1 (out ++ [b]) hInv1 (by omega) (by omega)

lemma lk_getD_default_swap (l : List Nat) {i : Nat} (h : i < l.length) (d1 d2 : Nat) :
    l.getD i d1 = l.getD i d2 := by
  rw [lk_getD_eq _ h, lk_getD_eq _ h]

lemma lzCopy_length (n : Nat) : ∀ buf offset buf2, lzCopy buf offset n = .ok buf2 →
    buf2.length = buf.length + n := by
  induction n with
  | zero =>
    intro buf offset buf2 h
    simp only [lzCopy] at h
    injection h with h
    rw [← h, Nat.add_zero]
  | succ n ih =>
    intro buf offset buf2 h
    simp only [lzCopy, listIndex] at h
    by_cases hb : offset < buf.length
    · rw [if_pos hb] at h
      have := ih (buf ++ [buf.getD offset 0]) (offset + 1) buf2 h
      simp at this
      omega
    · rw [if_neg hb] at h
      exact absurd h (by simp)

lemma circ_lit_err_shape {st st1 : LzCircularBuffer} {b : Nat} {e : Err}
    (h : st.append_literal b = (st1, .error e)) :
    e = .memLimit st.memlimit ∧ st1 = st := by
  by_cases hgrow : st.buf.length < st.cursor + 1
  · by_cases hml : st.cursor + 1 ≤ st.memlimit
    · exfalso
      have heq := circ_lit_eq_of_set (v := b) (circ_set_grow_ok hgrow hml)
      rw [h] at heq
      by_cases hwrap : st.cursor + 1 = st.dict_size
      · rw [if_pos hwrap] at heq
        have := congrArg Prod.snd heq
        simp at this
      · rw [if_neg hwrap] at heq
        have := congrArg Prod.snd heq
        simp at this
    · have heq := circ_lit_eq_of_set_err (v := b) (circ_set_grow_err hgrow hml)
      rw [h] at heq
      have h1 := congrArg Prod.fst heq
      have h2 := congrArg Prod.snd heq
      simp at h1 h2
      exact ⟨h2, h1⟩
  · exfalso
    have heq := circ_lit_eq_of_set (v := b) (circ_set_nogrow hgrow)
    rw [h] at heq
    by_cases hwrap : st.cursor + 1 = st.dict_size
    · rw [if_pos hwrap] at heq
      have := congrArg Prod.snd heq
      simp at this
    · rw [if_neg hwrap] at heq
      have := congrArg Prod.snd heq
      simp at this

lemma lzLoop_no_distErr (n : Nat) : ∀ st offset, resDistErr (lzLoop st offset n).2 = false := by
  induction n with
  | zero => intro st offset; rfl
  | succ n ih =>
    intro st offset
    rcases hstep : st.append_literal (st.get offset) with ⟨st1, e⟩
    cases e with
    | error err =>
      have hE : (lzLoop st offset (n + 1)).2 = .error err := by
        simp only [lzLoop, hstep]
      rw [hE]
      have := (circ_lit_err_shape hstep).1
      rw [this]
      rfl
    | ok u =>
      cases u
      have hE : lzLoop st offset (n + 1) =
          lzLoop st1 (if offset + 1 = st1.dict_size then 0 else offset + 1) n := by
        simp only [lzLoop, hstep]
      rw [hE]
      exact ih _ _

lemma circ_set_ok_len {st : LzCircularBuffer} {v : Nat} {buf1 : List Nat}
    (h : st.set st.cursor v = .ok buf1) :
    buf1.length = st.buf.length ∨
      (buf1.length = st.cursor + 1 ∧ st.cursor + 1 ≤ st.memlimit) := by
  unfold LzCircularBuffer.set at h
  by_cases hgrow : st.buf.length < st.cursor + 1
  · rw [if_pos hgrow] at h
    by_cases hml : st.cursor + 1 ≤ st.memlimit
    · rw [if_pos hml] at h
      injection h with h
      refine Or.inr ⟨?_, hml⟩
      rw [← h]
      simp [listResize]
      omega
    · rw [if_neg hml] at h
      exact absurd h (by simp)
  · rw [if_neg hgrow] at h
    injection h with h
    rw [← h]
    simp

lemma circ_lit_bounds (st : LzCircularBuffer) (b : Nat) (hD : 0 < st.dict_size)
    (h : CircBounds st) :
    CircBounds (st.append_literal b).1 ∧
    (st.append_literal b).1.dict_size = st.dict_size ∧
    (st.append_literal b).1.memlimit = st.memlimit := by
  obtain ⟨hc, hb⟩ := h
  cases hset : st.set st.cursor b with
  | error e =>
    rw [circ_lit_eq_of_set_err hset]
    exact ⟨⟨hc, hb⟩, rfl, rfl⟩
  | ok buf1 =>
    have hlen1 := circ_set_ok_len hset
    rw [circ_lit_eq_of_set hset]
    by_cases hwrap : st.cursor + 1 = st.dict_size
    · rw [if_pos hwrap]
      refine ⟨⟨hD, ?_⟩, rfl, rfl⟩
      dsimp only
      rcases hlen1 with h1 | ⟨h1, h2⟩ <;> omega
    · rw [if_neg hwrap]
      refine ⟨⟨by dsimp only; omega, ?_⟩, rfl, rfl⟩
      dsimp only
      rcases hlen1 with h1 | ⟨h1, h2⟩ <;> omega

lemma lzLoop_bounds (n : Nat) : ∀ st offset, 0 < st.dict_size → CircBounds st →
    CircBounds (lzLoop st offset n).1 ∧
    (lzLoop st offset n).1.dict_size = st.dict_size ∧
    (lzLoop st offset n).1.memlimit = st.memlimit := by
  induction n with
  | zero => intro st offset hD h; exact ⟨h, rfl, rfl⟩
  | succ n ih =>
    intro st offset hD h
    have hlit := circ_lit_bounds st (st.get offset) hD h
    rcases hstep : st.append_literal (st.get offset) with ⟨st1, e⟩
    rw [hstep] at hlit
    dsimp only at hlit
    obtain ⟨hB1, hds1, hml1⟩ := hlit
    cases e with
    | error err =>
      have hE : lzLoop st offset (n + 1) = (st1, .error err) := by
        simp only [lzLoop, hstep]
      rw [hE]
      exact ⟨hB1, hds1, hml1⟩
    | ok u =>
      cases u
      have hE : lzLoop st offset (n + 1) =
          lzLoop st1 (if offset + 1 = st1.dict_size then 0 else offset + 1) n := by
        simp only [lzLoop, hstep]
      rw [hE]
      have hres := ih st1 (if offset + 1 = st1.dict_size then 0 else offset + 1)
        (by omega) hB1
      exact ⟨hres.1, hres.2.1.trans hds1, hres.2.2.trans hml1⟩

lemma circ_step_bounds (st : LzCircularBuffer) (op : Op) (hD : 0 < st.dict_size)
    (h : CircBounds st) :
    CircBounds (st.step op).1 ∧
    (st.step op).1.dict_size = st.dict_size ∧
    (st.step op).1.memlimit = st.memlimit := by
  match op with
  | .lit b => exact circ_lit_bounds st b hD h
  | .lz n d =>
    have hsl : st.step (.lz n d) = st.append_lz n d := rfl
    rw [hsl]
    unfold LzCircularBuffer.append_lz
    by_cases hv1 : st.dict_size < d
    · rw [if_pos hv1]
      exact ⟨h, rfl, rfl⟩
    · rw [if_neg hv1]
      by_cases hv2 : st.len < d
      · rw [if_pos hv2]
        exact ⟨h, rfl, rfl⟩
      · rw [if_neg hv2]
        have hmod : rustMod (st.dict_size + st.cursor - d) st.dict_size =
            .ok ((st.dict_size + st.cursor - d) % st.dict_size) := by
          unfold rustMod
          rw [if_neg (by omega)]
        rw [hmod]
        dsimp only
        exact lzLoop_bounds n st _ hD h

lemma periodic_shift (out : List Nat) (d : Nat) (hd : 1 ≤ d) (hdL : d ≤ out.length) (n : Nat) :
    periodicBytes out d (n + 1) =
      out.getD (out.length - d) 0 ::
        periodicBytes (out ++ [out.getD (out.length - d) 0]) d n := by
  unfold periodicBytes
  rw [List.range_succ_eq_map, List.map_cons, List.map_map]
  congr 1
  · rw [Nat.zero_mod, lk_getD_drop, Nat.add_zero]
  · congr 1
    funext i
    show (out.drop (out.length - d)).getD ((i + 1) % d) 0 =
      ((out ++ [out.getD (out.length - d) 0]).drop
        ((out ++ [out.getD (out.length - d) 0]).length - d)).getD (i % d) 0
    have hlen1 : (out ++ [out.getD (out.length - d) 0]).length = out.length + 1 := by simp
    rw [hlen1, List.drop_append_of_le_length (by omega)]
    have hdroplen : (out.drop (out.length + 1 - d)).length = d - 1 := by simp; omega
    by_cases hcase : i % d + 1 = d
    · rw [lk_succ_mod i d (by omega), if_pos hcase]
      rw [List.getD_append_right _ _ _ _ (by rw [hdroplen]; omega)]
      have h0 : i % d - (out.drop (out.length + 1 - d)).length = 0 := by
        rw [hdroplen]; omega
      rw [h0, lk_getD_drop, Nat.add_zero]
      rfl
    · have hr : i % d < d := Nat.mod_lt _ (by omega)
      rw [lk_succ_mod i d (by omega), if_neg hcase]
      rw [lk_getD_drop, lk_getD_append _ _ (by rw [hdroplen]; omega), lk_getD_drop]
      congr 1
      omega

lemma naiveCopy_periodic (n : Nat) : ∀ out d, 1 ≤ d → d ≤ out.length →
    naiveCopy out (out.length - d) n = out ++ periodicBytes out d n := by
  induction n with
  | zero =>
    intro out d h1 h2
    simp [naiveCopy, periodicBytes]
  | succ n ih =>
    intro out d h1 h2
    have hstep : naiveCopy out (out.length - d) (n + 1)
        = naiveCopy (out ++ [out.getD (out.length - d) 0]) (out.length - d + 1) n := rfl
    have harg : out.length - d + 1 = (out ++ [out.getD (out.length - d) 0]).length - d := by
      simp
      omega
    rw [hstep, harg, ih _ d h1 (by simp; omega), periodic_shift out d h1 h2 n]
    simp

/-- Claim C2 (code bug): LzAccumBuffer.append_lz performs no memory-limit
check. With memlimit 2, after two literals the resident length is 2 and
equals the limit, yet append_lz(len 2, dist 1) succeeds and grows len to 4,
strictly beyond memlimit, where the claim and the specification require a
MemoryLimitExceeded failure with no bytes appended. -/
theorem claim2_thm :
    ((accFresh 2).run [Op.lit 1, Op.lit 2]).2 = .ok () ∧
    ((accFresh 2).run [Op.lit 1, Op.lit 2]).1.len = 2 ∧
    ((((accFresh 2).run [Op.lit 1, Op.lit 2]).1).append_lz 2 1).2 = .ok () ∧
    ((((accFresh 2).run [Op.lit 1, Op.lit 2]).1).append_lz 2 1).1.len = 4 ∧
    ¬ ((((accFresh 2).run [Op.lit 1, Op.lit 2]).1).append_lz 2 1).1.len ≤
        ((((accFresh 2).run [Op.lit 1, Op.lit 2]).1).append_lz 2 1).1.memlimit :=
  ⟨rfl, rfl, rfl, rfl, by decide⟩

/-- Claim C3 counterexample: starting from an accumulating buffer constructed
with an empty backing region and memlimit 2, the call sequence lit 1, lit 2,
lz(2, 1) succeeds in every operation, yet afterwards len = 4 > memlimit = 2,
refuting the claimed invariant len ≤ memlimit after every successful
operation. -/
theorem claim3_counterexample :
    ((accFresh 2).run [Op.lit 1, Op.lit 2, Op.lz 2 1]).2 = .ok () ∧
    ((accFresh 2).run [Op.lit 1, Op.lit 2, Op.lz 2 1]).1.len = 4 ∧
    ¬ ((accFresh 2).run [Op.lit 1, Op.lit 2, Op.lz 2 1]).1.len ≤ 2 :=
  ⟨rfl, rfl, by decide⟩

/-- Claim C3 (amended): for the accumulating variant, backing.length = len is
preserved by every operation; a successful append_literal increases len by
exactly 1 and respects len ≤ memlimit; a successful append_lz increases len
by exactly the copy length (strictly when it is nonzero) but is not bounded
by memlimit; reset drops len to 0 after flushing the backing region to the
sink; append_bytes preserves backing.length = len. -/
theorem claim3_amended_thm (st : LzAccumBuffer) (b n d : Nat) (bs : List Nat)
    (hinv : st.buf.length = st.len) :
    ((st.append_literal b).2 = .ok () →
      (st.append_literal b).1.buf.length = (st.append_literal b).1.len ∧
      (st.append_literal b).1.len = st.len + 1 ∧
      (st.append_literal b).1.len ≤ st.memlimit) ∧
    ((st.append_lz n d).2 = .ok () →
      (st.append_lz n d).1.buf.length = (st.append_lz n d).1.len ∧
      (st.append_lz n d).1.len = st.len + n) ∧
    ((st.reset).buf.length = (st.reset).len ∧ (st.reset).len = 0 ∧
      (st.reset).stream = st.stream.writeAll st.buf) ∧
    ((st.append_bytes bs).buf.length = (st.append_bytes bs).len) := by
  refine ⟨?_, ?_, ⟨rfl, rfl, rfl⟩, ?_⟩
  · intro hok
    unfold LzAccumBuffer.append_literal at hok ⊢
    by_cases hml : st.memlimit < st.len + 1
    · rw [if_pos hml] at hok
      exact absurd hok (by simp)
    · rw [if_neg hml] at hok ⊢
      dsimp only
      simp [hinv]
      omega
  · intro hok
    unfold LzAccumBuffer.append_lz at hok ⊢
    by_cases hv : st.buf.length < d
    · rw [if_pos hv] at hok
      exact absurd hok (by simp)
    · rw [if_neg hv] at hok ⊢
      cases hcopy : lzCopy st.buf (st.buf.length - d) n with
      | error e =>
        rw [hcopy] at hok
        exact absurd hok (by simp)
      | ok buf2 =>
        dsimp only
        have := lzCopy_length n st.buf (st.buf.length - d) buf2 hcopy
        rw [this, hinv]
        exact ⟨rfl, rfl⟩
  · show (st.buf ++ bs).length = st.len + bs.length
    simp [hinv]

/-- Claim C3 amended, witness at a concrete state: the empty accumulating
buffer with memlimit 5, one literal, a zero-length copy, and two appended
bytes, with every hypothesis discharged. -/
theorem claim3_amended_witness :
    (((accFresh 5).append_literal 1).1.buf.length = ((accFresh 5).append_literal 1).1.len ∧
      ((accFresh 5).append_literal 1).1.len = (accFresh 5).len + 1 ∧
      ((accFresh 5).append_literal 1).1.len ≤ (accFresh 5).memlimit) ∧
    (((accFresh 5).append_lz 0 0).1.buf.length = ((accFresh 5).append_lz 0 0).1.len ∧
      ((accFresh 5).append_lz 0 0).1.len = (accFresh 5).len + 0) ∧
    (((accFresh 5).reset).buf.length = ((accFresh 5).reset).len ∧
      ((accFresh 5).reset).len = 0 ∧
      ((accFresh 5).reset).stream = (accFresh 5).stream.writeAll (accFresh 5).buf) ∧
    (((accFresh 5).append_bytes [1, 2]).buf.length = ((accFresh 5).append_bytes [1, 2]).len) :=
  ⟨(claim3_amended_thm (accFresh 5) 1 0 0 [1, 2] rfl).1 rfl,
    (claim3_amended_thm (accFresh 5) 1 0 0 [1, 2] rfl).2.1 rfl,
    (claim3_amended_thm (accFresh 5) 1 0 0 [1, 2] rfl).2.2.1,
    (claim3_amended_thm (accFresh 5) 1 0 0 [1, 2] rfl).2.2.2⟩

/-- Claim C9: for the accumulating variant constructed on an empty backing
region, appending memlimit literals succeeds and brings len to memlimit; the
next append_literal fails with MemoryLimitExceeded and leaves the state (both
the backing region and len) unchanged. -/
theorem claim9_thm (ml : Nat) (bs : List Nat) (b : Nat) (hlen : bs.length = ml) :
    ((accFresh ml).run (litOps bs)).2 = .ok () ∧
    ((accFresh ml).run (litOps bs)).1.len = ml ∧
    ((((accFresh ml).run (litOps bs)).1).append_literal b).2 = .error (.memLimit ml) ∧
    ((((accFresh ml).run (litOps bs)).1).append_literal b).1 =
      ((accFresh ml).run (litOps bs)).1 := by
  have h := acc_litrun_ok bs (accFresh ml) (by
    show 0 + bs.length ≤ ml
    omega)
  rw [h]
  simp only [accFresh, LzAccumBuffer.from_stream]
  have hml : ml < 0 + bs.length + 1 := by omega
  refine ⟨trivial, by omega, ?_, ?_⟩
  · unfold LzAccumBuffer.append_literal
    dsimp only
    rw [if_pos hml]
  · unfold LzAccumBuffer.append_literal
    dsimp only
    rw [if_pos hml]

/-- Claim C9, witness at memlimit 2 with literals 1, 2 and a rejected third
byte 9. -/
theorem claim9_witness :
    ((accFresh 2).run (litOps [1, 2])).2 = .ok () ∧
    ((accFresh 2).run (litOps [1, 2])).1.len = 2 ∧
    ((((accFresh 2).run (litOps [1, 2])).1).append_literal 9).2 = .error (.memLimit 2) ∧
    ((((accFresh 2).run (litOps [1, 2])).1).append_literal 9).1 =
      ((accFresh 2).run (litOps [1, 2])).1 :=
  claim9_thm 2 [1, 2] 9 rfl

/-- Claim C5: for the circular variant, last_n and append_lz return a
DistanceOutOfRange error exactly when dist > dict_size or dist > len; in
particular dist > dict_size fails regardless of how much has been emitted,
and when dist ≤ min(dict_size, len) the distance validation never produces a
DistanceOutOfRange error. -/
theorem claim5_thm (st : LzCircularBuffer) (dist n : Nat) :
    (resDistErr (st.last_n dist) = true ↔ st.dict_size < dist ∨ st.len < dist) ∧
    (resDistErr (st.append_lz n dist).2 = true ↔ st.dict_size < dist ∨ st.len < dist) := by
  constructor
  · unfold LzCircularBuffer.last_n
    by_cases h1 : st.dict_size < dist
    · rw [if_pos h1]
      simp [resDistErr, isDistErr]
      exact Or.inl h1
    · rw [if_neg h1]
      by_cases h2 : st.len < dist
      · rw [if_pos h2]
        simp [resDistErr, isDistErr]
        exact Or.inr h2
      · rw [if_neg h2]
        unfold rustMod
        by_cases hD : st.dict_size = 0
        · rw [if_pos hD]
          simp [resDistErr, isDistErr]
          omega
        · rw [if_neg hD]
          simp [resDistErr, isDistErr]
          omega
  · unfold LzCircularBuffer.append_lz
    by_cases h1 : st.dict_size < dist
    · rw [if_pos h1]
      simp [resDistErr, isDistErr]
      exact Or.inl h1
    · rw [if_neg h1]
      by_cases h2 : st.len < dist
      · rw [if_pos h2]
        simp [resDistErr, isDistErr]
        exact Or.inr h2
      · rw [if_neg h2]
        unfold rustMod
        by_cases hD : st.dict_size = 0
        · rw [if_pos hD]
          simp [resDistErr, isDistErr]
          omega
        · rw [if_neg hD]
          dsimp only
          rw [lzLoop_no_distErr]
          simp
          omega

/-- Claim C1 counterexample: the call sequence lit 5 then lz(1, 0) on a
circular buffer with dict_size 1 satisfies the claim's distance-validity
condition (0 ≤ bytes emitted and 0 ≤ dict_size), never trips the memory
limit (every call succeeds), yet the flushed bytes are [5, 5] while the naive
reference model yields [5, 0]. -/
theorem claim1_counterexample :
    distsOk (some 1) 0 [Op.lit 5, Op.lz 1 0] = true ∧
    ((circFresh 1 10).run [Op.lit 5, Op.lz 1 0]).2 = .ok () ∧
    (LzCircularBuffer.finish ((circFresh 1 10).run [Op.lit 5, Op.lz 1 0]).1).written ≠
      naiveRun [] [Op.lit 5, Op.lz 1 0] :=
  ⟨rfl, rfl, by decide⟩

/-- Claim C1 (amended): for every call sequence whose distances are valid
(each at most the bytes emitted so far; for the circular variant also at most
dict_size and, as the counterexample forces, at least 1) and which never
trips the memory limit (the run succeeds), the bytes written to the sink
during the calls plus those written by finish equal the output of the naive
unbounded-array reference model, for both variants; the accumulating variant
needs no positivity assumption because a zero distance makes its copy loop
panic rather than succeed. -/
theorem claim1_amended_thm (ops : List Op) (ds ml ml2 : Nat) :
    (distsOk none 0 ops = true →
      ((accFresh ml2).run ops).2 = .ok () →
      (LzAccumBuffer.finish ((accFresh ml2).run ops).1).written = naiveRun [] ops) ∧
    (distsOk (some ds) 0 ops = true → lzPos ops = true →
      ((circFresh ds ml).run ops).2 = .ok () →
      (LzCircularBuffer.finish ((circFresh ds ml).run ops).1).written = naiveRun [] ops) := by
  constructor
  · intro hok hrun
    have hinv := acc_run_inv ops (accFresh ml2) [] (acc_fresh_inv ml2) hok hrun
    obtain ⟨hbuf, -, hstream⟩ := hinv
    show (((accFresh ml2).run ops).1.stream.writeAll (((accFresh ml2).run ops).1.buf)).written
      = naiveRun [] ops
    show ((accFresh ml2).run ops).1.stream.written ++ ((accFresh ml2).run ops).1.buf
      = naiveRun [] ops
    rw [hbuf, hstream]
    rfl
  · intro hok hpos hrun
    have hinv := circ_run_inv ops (circFresh ds ml) [] (circ_fresh_inv ds ml) hok hpos hrun
    exact circ_finish_inv hinv.1

/-- Claim C1 amended, witness: literals 1, 2 then an overlapping copy lz(3, 2)
with dict_size 2 and ample memory limits on both variants, with every
hypothesis discharged. -/
theorem claim1_amended_witness :
    (LzAccumBuffer.finish ((accFresh 100).run [Op.lit 1, Op.lit 2, Op.lz 3 2]).1).written =
      naiveRun [] [Op.lit 1, Op.lit 2, Op.lz 3 2] ∧
    (LzCircularBuffer.finish ((circFresh 2 100).run [Op.lit 1, Op.lit 2, Op.lz 3 2]).1).written =
      naiveRun [] [Op.lit 1, Op.lit 2, Op.lz 3 2] :=
  ⟨(claim1_amended_thm [Op.lit 1, Op.lit 2, Op.lz 3 2] 2 100 100).1 rfl rfl,
    (claim1_amended_thm [Op.lit 1, Op.lit 2, Op.lz 3 2] 2 100 100).2 rfl rfl rfl⟩

/-- Claim C4: for the circular variant with dict_size > 0, memlimit at least
dict_size and an empty initial backing region: after exactly dict_size
literals, the sink has received exactly those bytes in order and the cursor
is back to 0; after dict_size + k literals with 0 < k < dict_size, the sink
has received exactly the first dict_size bytes and finish then yields the
whole output, so it writes exactly the k trailing bytes, duplicating and
dropping nothing. -/
theorem claim4_thm (ds ml k : Nat) (bs cs : List Nat) (hds : 0 < ds) (hml : ds ≤ ml)
    (hbs : bs.length = ds) (hk1 : 0 < k) (hk2 : k < ds) (hcs : cs.length = ds + k) :
    (((circFresh ds ml).run (litOps bs)).2 = .ok () ∧
      ((circFresh ds ml).run (litOps bs)).1.stream.written = bs ∧
      ((circFresh ds ml).run (litOps bs)).1.cursor = 0) ∧
    (((circFresh ds ml).run (litOps cs)).2 = .ok () ∧
      ((circFresh ds ml).run (litOps cs)).1.stream.written = cs.take ds ∧
      (LzCircularBuffer.finish ((circFresh ds ml).run (litOps cs)).1).written = cs) := by
  constructor
  · have hok := circ_litrun_ok bs (circFresh ds ml) [] (circ_fresh_inv ds ml) hds hml
    have hinv := circ_run_inv (litOps bs) (circFresh ds ml) [] (circ_fresh_inv ds ml)
      (distsOk_litOps _ bs 0) (lzPos_litOps bs) hok
    rw [naiveRun_litOps bs []] at hinv
    simp only [List.nil_append] at hinv
    have hds3 : ((circFresh ds ml).run (litOps bs)).1.dict_size = ds := hinv.2
    obtain ⟨⟨hlen, hcur, hwr, -, -, -⟩, -⟩ := hinv
    have hc0 : ((circFresh ds ml).run (litOps bs)).1.cursor = 0 := by
      rw [hcur, hbs, hds3]
      exact Nat.mod_self ds
    refine ⟨hok, ?_, hc0⟩
    rw [hwr, hc0, Nat.sub_zero]
    exact List.take_of_length_le le_rfl
  · have hok := circ_litrun_ok cs (circFresh ds ml) [] (circ_fresh_inv ds ml) hds hml
    have hinv := circ_run_inv (litOps cs) (circFresh ds ml) [] (circ_fresh_inv ds ml)
      (distsOk_litOps _ cs 0) (lzPos_litOps cs) hok
    rw [naiveRun_litOps cs []] at hinv
    simp only [List.nil_append] at hinv
    have hfin := circ_finish_inv hinv.1
    have hds3 : ((circFresh ds ml).run (litOps cs)).1.dict_size = ds := hinv.2
    obtain ⟨⟨hlen, hcur, hwr, -, -, -⟩, -⟩ := hinv
    have hck : ((circFresh ds ml).run (litOps cs)).1.cursor = k := by
      rw [hcur, hcs, hds3, Nat.add_mod_left, Nat.mod_eq_of_lt hk2]
    refine ⟨hok, ?_, hfin⟩
    rw [hwr, hck, hcs]
    congr 1
    omega

/-- Claim C4, witness: dict_size 2, memlimit 2, window bytes [1, 2] and the
longer sequence [1, 2, 3] with k = 1, all hypotheses discharged. -/
theorem claim4_witness :
    (((circFresh 2 2).run (litOps [1, 2])).2 = .ok () ∧
      ((circFresh 2 2).run (litOps [1, 2])).1.stream.written = [1, 2] ∧
      ((circFresh 2 2).run (litOps [1, 2])).1.cursor = 0) ∧
    (((circFresh 2 2).run (litOps [1, 2, 3])).2 = .ok () ∧
      ((circFresh 2 2).run (litOps [1, 2, 3])).1.stream.written = List.take 2 [1, 2, 3] ∧
      (LzCircularBuffer.finish ((circFresh 2 2).run (litOps [1, 2, 3])).1).written = [1, 2, 3]) :=
  claim4_thm 2 2 1 [1, 2] [1, 2, 3] (by decide) (by decide) (by decide) (by decide)
    (by decide) (by decide)

/-- Claim C6 counterexample: on the circular variant with dict_size 1, after
emitting the byte 5 the call append_lz(len 2, dist 0) has dist < len and
succeeds, but it emits [5, 5] (stale window reads), not the length-2 periodic
repetition of the empty 0-byte suffix that the claim describes, so the full
output [5, 5, 5] differs from output-so-far ++ periodic repetition. -/
theorem claim6_counterexample :
    ((((circFresh 1 10).run [Op.lit 5]).1).append_lz 2 0).2 = .ok () ∧
    (LzCircularBuffer.finish ((((circFresh 1 10).run [Op.lit 5]).1).append_lz 2 0).1).written =
      [5, 5, 5] ∧
    naiveRun [] [Op.lit 5] ++ periodicBytes (naiveRun [] [Op.lit 5]) 0 2 ≠ [5, 5, 5] :=
  ⟨rfl, rfl, by decide⟩

/-- Claim C6 (amended): append_lz(len, dist) with 1 ≤ dist < len, when it
succeeds, emits the periodic repetition of the dist-byte suffix of the
current output, of total length len: for the accumulating variant on any
state, the backing region becomes its old value followed by that repetition;
for the circular variant reached by any valid successful run, the finished
output equals the model output followed by that repetition. -/
theorem claim6_amended_thm (st : LzAccumBuffer) (ops : List Op) (ds ml n d : Nat)
    (hd1 : 1 ≤ d) (hdn : d < n) :
    ((st.append_lz n d).2 = .ok () →
      (st.append_lz n d).1.buf = st.buf ++ periodicBytes st.buf d n) ∧
    (distsOk (some ds) 0 ops = true → lzPos ops = true →
      ((circFresh ds ml).run ops).2 = .ok () →
      ((((circFresh ds ml).run ops).1).append_lz n d).2 = .ok () →
      (LzCircularBuffer.finish ((((circFresh ds ml).run ops).1).append_lz n d).1).written =
        naiveRun [] ops ++ periodicBytes (naiveRun [] ops) d n) := by
  constructor
  · intro hok
    unfold LzAccumBuffer.append_lz at hok ⊢
    by_cases hv : st.buf.length < d
    · rw [if_pos hv] at hok
      exact absurd hok (by simp)
    · rw [if_neg hv] at hok ⊢
      have hoff : st.buf.length - d < st.buf.length := by omega
      rw [lzCopy_ok n st.buf (st.buf.length - d) hoff]
      dsimp only
      exact naiveCopy_periodic n st.buf d hd1 (by omega)
  · intro hok hpos hrun hlz
    have hinv := circ_run_inv ops (circFresh ds ml) [] (circ_fresh_inv ds ml) hok hpos hrun
    have hds3 : ((circFresh ds ml).run ops).1.dict_size = ds := hinv.2
    have hInv := hinv.1
    simp only [List.nil_append] at hInv
    -- abbreviations
    unfold LzCircularBuffer.append_lz at hlz ⊢
    by_cases hv1 : ((circFresh ds ml).run ops).1.dict_size < d
    · rw [if_pos hv1] at hlz
      exact absurd hlz (by simp)
    · rw [if_neg hv1] at hlz ⊢
      by_cases hv2 : ((circFresh ds ml).run ops).1.len < d
      · rw [if_pos hv2] at hlz
        exact absurd hlz (by simp)
      · rw [if_neg hv2] at hlz ⊢
        have hD : 0 < ((circFresh ds ml).run ops).1.dict_size := by omega
        have hdL : d ≤ (naiveRun [] ops).length := by
          rw [← hInv.1]
          omega
        have hmod : rustMod (((circFresh ds ml).run ops).1.dict_size +
              ((circFresh ds ml).run ops).1.cursor - d)
              ((circFresh ds ml).run ops).1.dict_size =
            .ok (((naiveRun [] ops).length - d) % ((circFresh ds ml).run ops).1.dict_size) := by
          unfold rustMod
          rw [if_neg (by omega)]
          congr 1
          rw [hInv.2.1]
          exact lk_mod_shift (naiveRun [] ops).length _ d (by omega) hdL
        rw [hmod] at hlz ⊢
        dsimp only at hlz ⊢
        have hp : (naiveRun [] ops).length - d < (naiveRun [] ops).length := by omega
        have hw : (naiveRun [] ops).length ≤
            ((naiveRun [] ops).length - d) + ((circFresh ds ml).run ops).1.dict_size := by
          omega
        have hloop := lzLoop_inv n (((circFresh ds ml).run ops).1) (naiveRun [] ops)
          ((naiveRun [] ops).length - d) hInv hD hp hw hlz
        rw [circ_finish_inv hloop.1]
        exact naiveCopy_periodic n (naiveRun [] ops) d hd1 hdL

/-- Claim C6 amended, witness: the spec's own example — history 1, 2, 3 and
append_lz(5, 2) — on both variants, every hypothesis discharged. -/
theorem claim6_amended_witness :
    ((((accFresh 100).run (litOps [1, 2, 3])).1.append_lz 5 2).1.buf =
      ((accFresh 100).run (litOps [1, 2, 3])).1.buf ++
        periodicBytes ((accFresh 100).run (litOps [1, 2, 3])).1.buf 2 5) ∧
    ((LzCircularBuffer.finish
        ((((circFresh 8 8).run (litOps [1, 2, 3])).1).append_lz 5 2).1).written =
      naiveRun [] (litOps [1, 2, 3]) ++
        periodicBytes (naiveRun [] (litOps [1, 2, 3])) 2 5) :=
  ⟨(claim6_amended_thm ((accFresh 100).run (litOps [1, 2, 3])).1 (litOps [1, 2, 3]) 8 8 5 2
      (by decide) (by decide)).1 rfl,
    (claim6_amended_thm ((accFresh 100).run (litOps [1, 2, 3])).1 (litOps [1, 2, 3]) 8 8 5 2
      (by decide) (by decide)).2 rfl rfl rfl rfl⟩

/-- Claim C7 counterexample: a freshly constructed circular buffer (cursor 0)
finishes successfully, yet the returned sink is untouched — in particular its
flush operation was never invoked, refuting that the sink's flush is invoked
on every successful finish. -/
theorem claim7_counterexample :
    LzCircularBuffer.finish (circFresh 1 10) = sink0 ∧
    (LzCircularBuffer.finish (circFresh 1 10)).flushes = 0 :=
  ⟨rfl, rfl⟩

/-- Claim C7 (amended): finish writes exactly the resident bytes not yet sent
and returns the sink — over any valid successful run the finished sink holds
the complete model output for both variants — and the sink's flush is invoked
on every finish that has pending bytes: always for the accumulating variant,
and exactly when cursor > 0 for the circular variant (stated with the cursor
inside the backing region, which holds in every reachable state), which
performs no write and no flush when cursor = 0. -/
theorem claim7_amended_thm (ops : List Op) (ds ml ml2 : Nat)
    (stA : LzAccumBuffer) (stC : LzCircularBuffer) :
    ((stA.finish).written = stA.stream.written ++ stA.buf ∧
      (stA.finish).flushes = stA.stream.flushes + 1) ∧
    (0 < stC.cursor → stC.cursor ≤ stC.buf.length →
      (stC.finish).written = stC.stream.written ++ stC.buf.take stC.cursor ∧
      (stC.finish).flushes = stC.stream.flushes + 1) ∧
    (stC.cursor = 0 → stC.finish = stC.stream) ∧
    (distsOk none 0 ops = true → ((accFresh ml2).run ops).2 = .ok () →
      (LzAccumBuffer.finish ((accFresh ml2).run ops).1).written = naiveRun [] ops) ∧
    (distsOk (some ds) 0 ops = true → lzPos ops = true →
      ((circFresh ds ml).run ops).2 = .ok () →
      (LzCircularBuffer.finish ((circFresh ds ml).run ops).1).written = naiveRun [] ops) := by
  refine ⟨⟨rfl, rfl⟩, ?_, ?_, ?_, ?_⟩
  · intro hc _
    unfold LzCircularBuffer.finish
    rw [if_pos hc]
    exact ⟨rfl, rfl⟩
  · intro hc
    unfold LzCircularBuffer.finish
    rw [if_neg (by omega)]
  · intro hok hrun
    have hinv := acc_run_inv ops (accFresh ml2) [] (acc_fresh_inv ml2) hok hrun
    obtain ⟨hbuf, -, hstream⟩ := hinv
    show ((accFresh ml2).run ops).1.stream.written ++ ((accFresh ml2).run ops).1.buf
      = naiveRun [] ops
    rw [hbuf, hstream]
    rfl
  · intro hok hpos hrun
    have hinv := circ_run_inv ops (circFresh ds ml) [] (circ_fresh_inv ds ml) hok hpos hrun
    exact circ_finish_inv hinv.1

/-- Claim C7 amended, witness: a concrete accumulating state with pending
bytes, a circular state with cursor 1 and one with cursor 0, and a short
valid run on both variants, every hypothesis discharged. -/
theorem claim7_amended_witness :
    ((LzAccumBuffer.finish ((accFresh 9).run [Op.lit 4]).1).written =
        ((accFresh 9).run [Op.lit 4]).1.stream.written ++ ((accFresh 9).run [Op.lit 4]).1.buf ∧
      (LzAccumBuffer.finish ((accFresh 9).run [Op.lit 4]).1).flushes =
        ((accFresh 9).run [Op.lit 4]).1.stream.flushes + 1) ∧
    ((LzCircularBuffer.finish ((circFresh 2 9).run [Op.lit 4]).1).written =
        ((circFresh 2 9).run [Op.lit 4]).1.stream.written ++
          ((circFresh 2 9).run [Op.lit 4]).1.buf.take ((circFresh 2 9).run [Op.lit 4]).1.cursor ∧
      (LzCircularBuffer.finish ((circFresh 2 9).run [Op.lit 4]).1).flushes =
        ((circFresh 2 9).run [Op.lit 4]).1.stream.flushes + 1) ∧
    (LzCircularBuffer.finish (circFresh 2 9) = (circFresh 2 9).stream) ∧
    ((LzAccumBuffer.finish ((accFresh 9).run [Op.lit 4]).1).written =
      naiveRun [] [Op.lit 4]) ∧
    ((LzCircularBuffer.finish ((circFresh 2 9).run [Op.lit 4]).1).written =
      naiveRun [] [Op.lit 4]) :=
  ⟨(claim7_amended_thm [Op.lit 4] 2 9 9 ((accFresh 9).run [Op.lit 4]).1
      ((circFresh 2 9).run [Op.lit 4]).1).1,
    (claim7_amended_thm [Op.lit 4] 2 9 9 ((accFresh 9).run [Op.lit 4]).1
      ((circFresh 2 9).run [Op.lit 4]).1).2.1 (by decide) (by decide),
    (claim7_amended_thm [Op.lit 4] 2 9 9 ((accFresh 9).run [Op.lit 4]).1
      (circFresh 2 9)).2.2.1 rfl,
    (claim7_amended_thm [Op.lit 4] 2 9 9 ((accFresh 9).run [Op.lit 4]).1
      ((circFresh 2 9).run [Op.lit 4]).1).2.2.2.1 rfl rfl,
    (claim7_amended_thm [Op.lit 4] 2 9 9 ((accFresh 9).run [Op.lit 4]).1
      ((circFresh 2 9).run [Op.lit 4]).1).2.2.2.2 rfl rfl rfl⟩

/-- Claim C8 counterexample: a circular buffer constructed with dict_size 0
accepts a literal (the wrap check never fires), after which last_or computes
(0 + 1 - 1) % 0 — a Rust remainder-by-zero panic, modelled as the fatal
error — so last_or does not return a byte and the call aborts. -/
theorem claim8_counterexample :
    ((circFresh 0 10).run [Op.lit 5]).2 = .ok () ∧
    (((circFresh 0 10).run [Op.lit 5]).1).last_or 7 = .error .fatal :=
  ⟨rfl, rfl⟩

/-- Claim C8 (amended): on every state reached by a valid successful run,
last_or(default) returns the default byte when nothing has been emitted and
otherwise the most recently emitted byte; this holds unconditionally for the
accumulating variant and for the circular variant provided dict_size > 0 (the
dict_size = 0 case panics on the remainder by zero, as the counterexample
shows). -/
theorem claim8_amended_thm (ops : List Op) (ds ml ml2 b : Nat) (hds : 0 < ds) :
    (distsOk none 0 ops = true →
      ((accFresh ml2).run ops).2 = .ok () →
      (((accFresh ml2).run ops).1).last_or b =
        (naiveRun [] ops).getD ((naiveRun [] ops).length - 1) b) ∧
    (distsOk (some ds) 0 ops = true → lzPos ops = true →
      ((circFresh ds ml).run ops).2 = .ok () →
      (((circFresh ds ml).run ops).1).last_or b =
        .ok ((naiveRun [] ops).getD ((naiveRun [] ops).length - 1) b)) := by
  constructor
  · intro hok hrun
    have hinv := acc_run_inv ops (accFresh ml2) [] (acc_fresh_inv ml2) hok hrun
    obtain ⟨hbuf, -, -⟩ := hinv
    unfold LzAccumBuffer.last_or
    rw [hbuf]
    by_cases hL : (naiveRun [] ops).length = 0
    · rw [if_pos hL]
      have hnil : naiveRun [] ops = [] := List.length_eq_zero.mp hL
      rw [hnil]
      rfl
    · rw [if_neg hL]
      exact lk_getD_default_swap _ (by omega) _ _
  · intro hok hpos hrun
    have hinv := circ_run_inv ops (circFresh ds ml) [] (circ_fresh_inv ds ml) hok hpos hrun
    have hds3 : ((circFresh ds ml).run ops).1.dict_size = ds := hinv.2
    have hInv := hinv.1
    simp only [List.nil_append] at hInv
    obtain ⟨hlen, hcur, -, -, -, hslot⟩ := hInv
    unfold LzCircularBuffer.last_or
    by_cases hL : (naiveRun [] ops).length = 0
    · rw [if_pos (by omega)]
      have hnil : naiveRun [] ops = [] := List.length_eq_zero.mp hL
      rw [hnil]
      rfl
    · rw [if_neg (by omega)]
      have hmod : rustMod (((circFresh ds ml).run ops).1.dict_size +
            ((circFresh ds ml).run ops).1.cursor - 1)
            ((circFresh ds ml).run ops).1.dict_size =
          .ok (((naiveRun [] ops).length - 1) % ((circFresh ds ml).run ops).1.dict_size) := by
        unfold rustMod
        rw [if_neg (by omega)]
        congr 1
        rw [hcur]
        exact lk_mod_shift (naiveRun [] ops).length _ 1 (by omega) (by omega)
      rw [hmod]
      dsimp only
      have hp : (naiveRun [] ops).length - 1 < (naiveRun [] ops).length := by omega
      have hw : (naiveRun [] ops).length ≤
          ((naiveRun [] ops).length - 1) + ((circFresh ds ml).run ops).1.dict_size := by
        omega
      have := hslot _ hp (Or.inl hw)
      show Except.ok (((circFresh ds ml).run ops).1.buf.getD
        (((naiveRun [] ops).length - 1) % ((circFresh ds ml).run ops).1.dict_size) 0) = _
      rw [this]
      congr 1
      exact lk_getD_default_swap _ hp _ _

/-- Claim C8 amended, witness: two literals on each variant with dict_size 2,
every hypothesis discharged. -/
theorem claim8_amended_witness :
    (((accFresh 9).run [Op.lit 4, Op.lit 6]).1).last_or 7 =
      (naiveRun [] [Op.lit 4, Op.lit 6]).getD
        ((naiveRun [] [Op.lit 4, Op.lit 6]).length - 1) 7 ∧
    (((circFresh 2 9).run [Op.lit 4, Op.lit 6]).1).last_or 7 =
      .ok ((naiveRun [] [Op.lit 4, Op.lit 6]).getD
        ((naiveRun [] [Op.lit 4, Op.lit 6]).length - 1) 7) :=
  ⟨(claim8_amended_thm [Op.lit 4, Op.lit 6] 2 9 9 7 (by decide)).1 rfl rfl,
    (claim8_amended_thm [Op.lit 4, Op.lit 6] 2 9 9 7 (by decide)).2 rfl rfl rfl⟩

/-- Claim C10: for the circular variant with dict_size > 0, construction with
an empty backing region establishes 0 ≤ cursor < dict_size and
backing.length ≤ min(dict_size, memlimit); every append_literal or append_lz
step — successful or failed — preserves these bounds (last_or, last_n and
finish do not mutate the state at all in this model), and with
dist ≤ dict_size the index computation dict_size + cursor - dist never
underflows. -/
theorem claim10_thm (st : LzCircularBuffer) (op : Op) (s : Sink) (ds ml dist : Nat)
    (hds : 0 < ds) (hD : 0 < st.dict_size) (h : CircBounds st)
    (hdist : dist ≤ st.dict_size) :
    CircBounds (LzCircularBuffer.from_stream s ds ml []) ∧
    CircBounds (st.step op).1 ∧
    (st.step op).1.dict_size = st.dict_size ∧
    (st.step op).1.memlimit = st.memlimit ∧
    st.dict_size + st.cursor - dist + dist = st.dict_size + st.cursor := by
  refine ⟨⟨hds, by simp [LzCircularBuffer.from_stream]⟩, ?_, ?_, ?_, by omega⟩
  · exact (circ_step_bounds st op hD h).1
  · exact (circ_step_bounds st op hD h).2.1
  · exact (circ_step_bounds st op hD h).2.2

/-- Claim C10, witness: the fresh circular buffer with dict_size 2 and
memlimit 5, a literal step, and dist 1, every hypothesis discharged. -/
theorem claim10_witness :
    CircBounds (LzCircularBuffer.from_stream sink0 2 5 []) ∧
    CircBounds ((circFresh 2 5).step (Op.lit 3)).1 ∧
    ((circFresh 2 5).step (Op.lit 3)).1.dict_size = (circFresh 2 5).dict_size ∧
    ((circFresh 2 5).step (Op.lit 3)).1.memlimit = (circFresh 2 5).memlimit ∧
    (circFresh 2 5).dict_size + (circFresh 2 5).cursor - 1 + 1 =
      (circFresh 2 5).dict_size + (circFresh 2 5).cursor :=
  claim10_thm (circFresh 2 5) (Op.lit 3) sink0 2 5 1 (by decide) (by decide)
    ⟨by decide, by decide⟩ (by decide)
